import Mathlib

/-!
Verification of the core fingerprinting and matching pipeline of the shazoom
repository.  The Lean definitions below are shallow embeddings of the Python
functions in audio-fingerprint.py, song_matcher.py and
db_pipeline/fingerprint_db.py: Python integers become Nat or Int, Python
dicts (which iterate in insertion order) become association lists updated in
place, Python sets of indices become duplicate-free lists, and float
confidences become rationals.
-/

namespace Shazoom

/-- Quantize a value to a multiple of the bin size, from audio-fingerprint.py:
return (value // bin_size) * bin_size. -/
def quantize_value (value bin_size : ℕ) : ℕ :=
  value / bin_size * bin_size

/-- Pack two 10-bit frequency fields and a 10-bit time delta into one integer
key, from audio-fingerprint.py: return (freq1 << 20) | (freq2 << 10) | delta_t. -/
def hash_function (freq1 freq2 delta_t : ℕ) : ℕ :=
  freq1 <<< 20 ||| freq2 <<< 10 ||| delta_t

/-- The fuzzy-lookup key set, from get_nearby_hashes in audio-fingerprint.py:
the primary key followed by the six one-field perturbations that stay inside
the interval from 0 to 1023.  The perturbed fields are computed with Python
(unbounded signed) integer arithmetic, hence the Int intermediate values. -/
def get_nearby_hashes (freq1 freq2 delta_t freq_bin time_bin : ℕ) : List ℕ :=
  let q_freq1 := quantize_value freq1 freq_bin
  let q_freq2 := quantize_value freq2 freq_bin
  let q_delta_t := quantize_value delta_t time_bin
  let primary_hash := hash_function q_freq1 q_freq2 q_delta_t
  let variations : List (ℤ × ℤ × ℤ) :=
    [((q_freq1 : ℤ) + (freq_bin : ℤ), (q_freq2 : ℤ), (q_delta_t : ℤ)),
     ((q_freq1 : ℤ) - (freq_bin : ℤ), (q_freq2 : ℤ), (q_delta_t : ℤ)),
     ((q_freq1 : ℤ), (q_freq2 : ℤ) + (freq_bin : ℤ), (q_delta_t : ℤ)),
     ((q_freq1 : ℤ), (q_freq2 : ℤ) - (freq_bin : ℤ), (q_delta_t : ℤ)),
     ((q_freq1 : ℤ), (q_freq2 : ℤ), (q_delta_t : ℤ) + (time_bin : ℤ)),
     ((q_freq1 : ℤ), (q_freq2 : ℤ), (q_delta_t : ℤ) - (time_bin : ℤ))]
  primary_hash ::
    (variations.filter fun v =>
        decide (0 ≤ v.1 ∧ v.1 < 1024 ∧ 0 ≤ v.2.1 ∧ v.2.1 < 1024 ∧
          0 ≤ v.2.2 ∧ v.2.2 < 1024)).map
      fun v => hash_function v.1.toNat v.2.1.toNat v.2.2.toNat

theorem hash_eq_add {f1 f2 dt : ℕ} (h2 : f2 < 1024) (h3 : dt < 1024) :
    hash_function f1 f2 dt = f1 * 2 ^ 20 + f2 * 2 ^ 10 + dt := by
  unfold hash_function
  rw [Nat.shiftLeft_eq, Nat.shiftLeft_eq]
  have e1 : f1 * 2 ^ 20 ||| f2 * 2 ^ 10 = f1 * 2 ^ 20 + f2 * 2 ^ 10 := by
    have hb : f2 * 2 ^ 10 < 2 ^ 20 := by
      have e10 : (2 : ℕ) ^ 10 = 1024 := by norm_num
      have e20 : (2 : ℕ) ^ 20 = 1048576 := by norm_num
      rw [e10, e20]
      omega
    have := (Nat.mul_add_lt_is_or hb f1).symm
    calc f1 * 2 ^ 20 ||| f2 * 2 ^ 10 = 2 ^ 20 * f1 ||| f2 * 2 ^ 10 := by
          rw [Nat.mul_comm]
      _ = 2 ^ 20 * f1 + f2 * 2 ^ 10 := this
      _ = f1 * 2 ^ 20 + f2 * 2 ^ 10 := by rw [Nat.mul_comm]
  rw [e1]
  have hdt : dt < 2 ^ 10 := by
    calc dt < 1024 := h3
      _ = 2 ^ 10 := by norm_num
  have h : f1 * 2 ^ 20 + f2 * 2 ^ 10 = 2 ^ 10 * (f1 * 2 ^ 10 + f2) := by ring
  rw [h, ← Nat.mul_add_lt_is_or hdt (f1 * 2 ^ 10 + f2)]

theorem land_1023_eq_mod (x : ℕ) : x &&& 1023 = x % 1024 := by
  apply Nat.eq_of_testBit_eq
  intro i
  rw [Nat.testBit_and, show (1023 : ℕ) = 2 ^ 10 - 1 from by norm_num,
    Nat.testBit_two_pow_sub_one, show (1024 : ℕ) = 2 ^ 10 from by norm_num,
    Nat.testBit_mod_two_pow]
  exact Bool.and_comm _ _

theorem hash_lt_two_pow_30 {f1 f2 dt : ℕ}
    (h1 : f1 < 1024) (h2 : f2 < 1024) (h3 : dt < 1024) :
    hash_function f1 f2 dt < 2 ^ 30 := by
  rw [hash_eq_add h2 h3]
  have e20 : (2 : ℕ) ^ 20 = 1048576 := by norm_num
  have e10 : (2 : ℕ) ^ 10 = 1024 := by norm_num
  have e30 : (2 : ℕ) ^ 30 = 1073741824 := by norm_num
  rw [e20, e10, e30]
  omega

theorem hash_sub_fields {f1 f2 dt : ℕ}
    (h1 : f1 < 1024) (h2 : f2 < 1024) (h3 : dt < 1024) :
    (hash_function f1 f2 dt >>> 20) &&& 1023 = f1 ∧
    (hash_function f1 f2 dt >>> 10) &&& 1023 = f2 ∧
    hash_function f1 f2 dt &&& 1023 = dt := by
  rw [hash_eq_add h2 h3, Nat.shiftRight_eq_div_pow, Nat.shiftRight_eq_div_pow,
      land_1023_eq_mod, land_1023_eq_mod, land_1023_eq_mod]
  have e20 : (2 : ℕ) ^ 20 = 1048576 := by norm_num
  have e10 : (2 : ℕ) ^ 10 = 1024 := by norm_num
  rw [e20, e10]
  omega

theorem hash_inj {a1 a2 a3 b1 b2 b3 : ℕ}
    (ha1 : a1 < 1024) (ha2 : a2 < 1024) (ha3 : a3 < 1024)
    (hb1 : b1 < 1024) (hb2 : b2 < 1024) (hb3 : b3 < 1024)
    (h : hash_function a1 a2 a3 = hash_function b1 b2 b3) :
    a1 = b1 ∧ a2 = b2 ∧ a3 = b3 := by
  obtain ⟨ea1, ea2, ea3⟩ := hash_sub_fields ha1 ha2 ha3
  obtain ⟨eb1, eb2, eb3⟩ := hash_sub_fields hb1 hb2 hb3
  rw [h] at ea1 ea2 ea3
  exact ⟨ea1.symm.trans eb1, ea2.symm.trans eb2, ea3.symm.trans eb3⟩

/-- Claim C7: for all quantized field values below 1024, the packed key is
strictly below 2 to the 30, each 10-bit sub-field recovers the corresponding
even input, the sub-fields are multiples of BIN = 2, and the concrete value
hash(6, 8, 4) equals 6299652. -/
theorem C7_hash_key_fields (f1 f2 dt : ℕ)
    (h1 : f1 < 1024) (h2 : f2 < 1024) (h3 : dt < 1024)
    (d1 : 2 ∣ f1) (d2 : 2 ∣ f2) (d3 : 2 ∣ dt) :
    hash_function f1 f2 dt < 2 ^ 30 ∧
    (hash_function f1 f2 dt >>> 20) &&& 1023 = f1 ∧
    (hash_function f1 f2 dt >>> 10) &&& 1023 = f2 ∧
    hash_function f1 f2 dt &&& 1023 = dt ∧
    2 ∣ ((hash_function f1 f2 dt >>> 20) &&& 1023) ∧
    2 ∣ ((hash_function f1 f2 dt >>> 10) &&& 1023) ∧
    2 ∣ (hash_function f1 f2 dt &&& 1023) ∧
    hash_function 6 8 4 = 6299652 := by
  obtain ⟨e1, e2, e3⟩ := hash_sub_fields h1 h2 h3
  refine ⟨hash_lt_two_pow_30 h1 h2 h3, e1, e2, e3, ?_, ?_, ?_, by decide⟩
  · rw [e1]; exact d1
  · rw [e2]; exact d2
  · rw [e3]; exact d3

/-- Witness for C7 at the concrete quantized triple (6, 8, 4). -/
theorem C7_hash_key_fields_witness :
    hash_function 6 8 4 < 2 ^ 30 ∧
    (hash_function 6 8 4 >>> 20) &&& 1023 = 6 ∧
    (hash_function 6 8 4 >>> 10) &&& 1023 = 8 ∧
    hash_function 6 8 4 &&& 1023 = 4 ∧
    2 ∣ ((hash_function 6 8 4 >>> 20) &&& 1023) ∧
    2 ∣ ((hash_function 6 8 4 >>> 10) &&& 1023) ∧
    2 ∣ (hash_function 6 8 4 &&& 1023) ∧
    hash_function 6 8 4 = 6299652 :=
  C7_hash_key_fields 6 8 4 (by decide) (by decide) (by decide)
    (by decide) (by decide) (by decide)

/-- Claim C9: the packing function is injective on triples with each component
below 1024, and each field is recovered from the key by shifting and masking
with 1023 (a pack and unpack round trip). -/
theorem C9_hash_injective (a1 a2 a3 b1 b2 b3 : ℕ)
    (ha1 : a1 < 1024) (ha2 : a2 < 1024) (ha3 : a3 < 1024)
    (hb1 : b1 < 1024) (hb2 : b2 < 1024) (hb3 : b3 < 1024) :
    (hash_function a1 a2 a3 = hash_function b1 b2 b3 →
      a1 = b1 ∧ a2 = b2 ∧ a3 = b3) ∧
    (hash_function a1 a2 a3 >>> 20) &&& 1023 = a1 ∧
    (hash_function a1 a2 a3 >>> 10) &&& 1023 = a2 ∧
    hash_function a1 a2 a3 &&& 1023 = a3 :=
  ⟨fun h => hash_inj ha1 ha2 ha3 hb1 hb2 hb3 h, hash_sub_fields ha1 ha2 ha3⟩

/-- Witness for C9 at the concrete triples (6, 8, 4) and (6, 8, 4). -/
theorem C9_hash_injective_witness :
    (hash_function 6 8 4 = hash_function 6 8 4 →
      6 = 6 ∧ 8 = 8 ∧ 4 = 4) ∧
    (hash_function 6 8 4 >>> 20) &&& 1023 = 6 ∧
    (hash_function 6 8 4 >>> 10) &&& 1023 = 8 ∧
    hash_function 6 8 4 &&& 1023 = 4 :=
  C9_hash_injective 6 8 4 6 8 4 (by decide) (by decide) (by decide)
    (by decide) (by decide) (by decide)

theorem quantize_le (v b : ℕ) : quantize_value v b ≤ v :=
  Nat.div_mul_le_self v b

theorem quantize_two_dvd (v : ℕ) : 2 ∣ quantize_value v 2 :=
  ⟨v / 2, by unfold quantize_value; ring⟩

/-- The six candidate one-step perturbations of a quantized triple, with the
bin size 2 substituted, used to restate get_nearby_hashes in a closed shape. -/
def nearbyVariations (a b c : ℤ) : List (ℤ × ℤ × ℤ) :=
  [(a + 2, b, c), (a - 2, b, c), (a, b + 2, c), (a, b - 2, c),
   (a, b, c + 2), (a, b, c - 2)]

/-- The range test applied to perturbed triples in get_nearby_hashes. -/
def inRange1024 (v : ℤ × ℤ × ℤ) : Bool :=
  decide (0 ≤ v.1 ∧ v.1 < 1024 ∧ 0 ≤ v.2.1 ∧ v.2.1 < 1024 ∧
    0 ≤ v.2.2 ∧ v.2.2 < 1024)

theorem nearby_shape (f1 f2 dt : ℕ) :
    get_nearby_hashes f1 f2 dt 2 2 =
      hash_function (quantize_value f1 2) (quantize_value f2 2)
          (quantize_value dt 2) ::
        ((nearbyVariations (quantize_value f1 2) (quantize_value f2 2)
              (quantize_value dt 2)).filter inRange1024).map
          fun v => hash_function v.1.toNat v.2.1.toNat v.2.2.toNat :=
  rfl

theorem nearbyVariations_nodup (a b c : ℤ) : (nearbyVariations a b c).Nodup := by
  simp only [nearbyVariations, List.nodup_cons, List.mem_cons, List.not_mem_nil,
    or_false, Prod.mk.injEq, List.nodup_nil, and_true, not_or, not_and,
    true_implies, not_false_eq_true]
  repeat' apply And.intro
  all_goals intros
  all_goals omega

/-- The tail of the fuzzy-lookup list consists of keys packed from triples that
perturb exactly one quantized field by plus or minus 2 and stay in range. -/
theorem mem_nearby_tail {f1 f2 dt k : ℕ}
    (hk : k ∈ (get_nearby_hashes f1 f2 dt 2 2).tail) :
    ∃ z1 z2 z3 : ℤ,
      0 ≤ z1 ∧ z1 < 1024 ∧ 0 ≤ z2 ∧ z2 < 1024 ∧ 0 ≤ z3 ∧ z3 < 1024 ∧
      k = hash_function z1.toNat z2.toNat z3.toNat ∧
      (((z1 = (quantize_value f1 2 : ℤ) + 2 ∨ z1 = (quantize_value f1 2 : ℤ) - 2) ∧
          z2 = (quantize_value f2 2 : ℤ) ∧ z3 = (quantize_value dt 2 : ℤ)) ∨
       ((z2 = (quantize_value f2 2 : ℤ) + 2 ∨ z2 = (quantize_value f2 2 : ℤ) - 2) ∧
          z1 = (quantize_value f1 2 : ℤ) ∧ z3 = (quantize_value dt 2 : ℤ)) ∨
       ((z3 = (quantize_value dt 2 : ℤ) + 2 ∨ z3 = (quantize_value dt 2 : ℤ) - 2) ∧
          z1 = (quantize_value f1 2 : ℤ) ∧ z2 = (quantize_value f2 2 : ℤ))) := by
  rw [nearby_shape, List.tail_cons] at hk
  obtain ⟨v, hv, rfl⟩ := List.mem_map.mp hk
  obtain ⟨hvV, hphi⟩ := List.mem_filter.mp hv
  simp only [nearbyVariations, List.mem_cons, List.not_mem_nil, or_false] at hvV
  rcases hvV with h | h | h | h | h | h <;> subst h <;>
    simp only [inRange1024, decide_eq_true_eq] at hphi <;>
    obtain ⟨r1, r2, r3, r4, r5, r6⟩ := hphi
  · exact ⟨_, _, _, r1, r2, r3, r4, r5, r6, rfl, Or.inl ⟨Or.inl rfl, rfl, rfl⟩⟩
  · exact ⟨_, _, _, r1, r2, r3, r4, r5, r6, rfl, Or.inl ⟨Or.inr rfl, rfl, rfl⟩⟩
  · exact ⟨_, _, _, r1, r2, r3, r4, r5, r6, rfl, Or.inr (Or.inl ⟨Or.inl rfl, rfl, rfl⟩)⟩
  · exact ⟨_, _, _, r1, r2, r3, r4, r5, r6, rfl, Or.inr (Or.inl ⟨Or.inr rfl, rfl, rfl⟩)⟩
  · exact ⟨_, _, _, r1, r2, r3, r4, r5, r6, rfl, Or.inr (Or.inr ⟨Or.inl rfl, rfl, rfl⟩)⟩
  · exact ⟨_, _, _, r1, r2, r3, r4, r5, r6, rfl, Or.inr (Or.inr ⟨Or.inr rfl, rfl, rfl⟩)⟩

/-- Claim C4: the fuzzy-lookup list starts with the primary key, has at most
seven pairwise distinct keys all below 2 to the 30, every non-primary key is a
one-field perturbation of the quantized triple by plus or minus 2 that stays in
range, and the list for (6, 8, 4) contains the variant key 4202500. -/
theorem C4_neighbourhood (f1 f2 dt : ℕ)
    (h1 : f1 < 1024) (h2 : f2 < 1024) (h3 : dt < 1024) :
    (get_nearby_hashes f1 f2 dt 2 2).head? =
      some (hash_function (quantize_value f1 2) (quantize_value f2 2)
        (quantize_value dt 2)) ∧
    (get_nearby_hashes f1 f2 dt 2 2).length ≤ 7 ∧
    (get_nearby_hashes f1 f2 dt 2 2).Nodup ∧
    (∀ k ∈ get_nearby_hashes f1 f2 dt 2 2, k < 2 ^ 30) ∧
    (∀ k ∈ (get_nearby_hashes f1 f2 dt 2 2).tail,
      ∃ z1 z2 z3 : ℤ,
        0 ≤ z1 ∧ z1 < 1024 ∧ 0 ≤ z2 ∧ z2 < 1024 ∧ 0 ≤ z3 ∧ z3 < 1024 ∧
        k = hash_function z1.toNat z2.toNat z3.toNat ∧
        (((z1 = (quantize_value f1 2 : ℤ) + 2 ∨ z1 = (quantize_value f1 2 : ℤ) - 2) ∧
            z2 = (quantize_value f2 2 : ℤ) ∧ z3 = (quantize_value dt 2 : ℤ)) ∨
         ((z2 = (quantize_value f2 2 : ℤ) + 2 ∨ z2 = (quantize_value f2 2 : ℤ) - 2) ∧
            z1 = (quantize_value f1 2 : ℤ) ∧ z3 = (quantize_value dt 2 : ℤ)) ∨
         ((z3 = (quantize_value dt 2 : ℤ) + 2 ∨ z3 = (quantize_value dt 2 : ℤ) - 2) ∧
            z1 = (quantize_value f1 2 : ℤ) ∧ z2 = (quantize_value f2 2 : ℤ)))) ∧
    4202500 ∈ get_nearby_hashes 6 8 4 2 2 := by
  have hq1 : quantize_value f1 2 < 1024 := lt_of_le_of_lt (quantize_le f1 2) h1
  have hq2 : quantize_value f2 2 < 1024 := lt_of_le_of_lt (quantize_le f2 2) h2
  have hq3 : quantize_value dt 2 < 1024 := lt_of_le_of_lt (quantize_le dt 2) h3
  refine ⟨by rw [nearby_shape]; rfl, ?_, ?_, ?_,
    fun k hk => mem_nearby_tail hk, by decide⟩
  · rw [nearby_shape, List.length_cons, List.length_map]
    have hfl := List.length_filter_le inRange1024
      (nearbyVariations ((quantize_value f1 2 : ℤ)) ((quantize_value f2 2 : ℤ))
        ((quantize_value dt 2 : ℤ)))
    have h6 : (nearbyVariations ((quantize_value f1 2 : ℤ))
        ((quantize_value f2 2 : ℤ)) ((quantize_value dt 2 : ℤ))).length = 6 := rfl
    omega
  · rw [nearby_shape]
    refine List.nodup_cons.mpr ⟨?_, ?_⟩
    · intro hmem
      obtain ⟨v, hv, heq⟩ := List.mem_map.mp hmem
      obtain ⟨hvV, hphi⟩ := List.mem_filter.mp hv
      simp only [inRange1024, decide_eq_true_eq] at hphi
      obtain ⟨r1, r2, r3, r4, r5, r6⟩ := hphi
      have hb1 : v.1.toNat < 1024 := by omega
      have hb2 : v.2.1.toNat < 1024 := by omega
      have hb3 : v.2.2.toNat < 1024 := by omega
      obtain ⟨e1, e2, e3⟩ := hash_inj hb1 hb2 hb3 hq1 hq2 hq3 heq
      have g1 : v.1 = (quantize_value f1 2 : ℤ) := by omega
      have g2 : v.2.1 = (quantize_value f2 2 : ℤ) := by omega
      have g3 : v.2.2 = (quantize_value dt 2 : ℤ) := by omega
      simp only [nearbyVariations, List.mem_cons, List.not_mem_nil, or_false] at hvV
      rcases hvV with h | h | h | h | h | h <;> rw [h] at g1 g2 g3 <;>
        dsimp only at g1 g2 g3 <;> omega
    · refine List.Nodup.map_on ?_
        ((nearbyVariations_nodup _ _ _).filter inRange1024)
      intro x hx y hy hxy
      obtain ⟨hxV, hxphi⟩ := List.mem_filter.mp hx
      obtain ⟨hyV, hyphi⟩ := List.mem_filter.mp hy
      simp only [inRange1024, decide_eq_true_eq] at hxphi hyphi
      obtain ⟨x1, x2, x3, x4, x5, x6⟩ := hxphi
      obtain ⟨y1, y2, y3, y4, y5, y6⟩ := hyphi
      have hb1 : x.1.toNat < 1024 := by omega
      have hb2 : x.2.1.toNat < 1024 := by omega
      have hb3 : x.2.2.toNat < 1024 := by omega
      have hc1 : y.1.toNat < 1024 := by omega
      have hc2 : y.2.1.toNat < 1024 := by omega
      have hc3 : y.2.2.toNat < 1024 := by omega
      obtain ⟨e1, e2, e3⟩ := hash_inj hb1 hb2 hb3 hc1 hc2 hc3 hxy
      have q1 : x.1 = y.1 := by omega
      have q2 : x.2.1 = y.2.1 := by omega
      have q3 : x.2.2 = y.2.2 := by omega
      exact Prod.ext_iff.mpr ⟨q1, Prod.ext_iff.mpr ⟨q2, q3⟩⟩
  · intro k hk
    rw [nearby_shape] at hk
    rcases List.mem_cons.mp hk with h | h
    · rw [h]; exact hash_lt_two_pow_30 hq1 hq2 hq3
    · obtain ⟨v, hv, rfl⟩ := List.mem_map.mp h
      obtain ⟨hvV, hphi⟩ := List.mem_filter.mp hv
      rw [inRange1024, decide_eq_true_eq] at hphi
      obtain ⟨r1, r2, r3, r4, r5, r6⟩ := hphi
      exact hash_lt_two_pow_30 (by omega) (by omega) (by omega)

/-- Witness for C4 at the concrete unquantized triple (6, 8, 4). -/
theorem C4_neighbourhood_witness :
    (get_nearby_hashes 6 8 4 2 2).head? =
      some (hash_function (quantize_value 6 2) (quantize_value 8 2)
        (quantize_value 4 2)) ∧
    (get_nearby_hashes 6 8 4 2 2).length ≤ 7 ∧
    (get_nearby_hashes 6 8 4 2 2).Nodup ∧
    (∀ k ∈ get_nearby_hashes 6 8 4 2 2, k < 2 ^ 30) ∧
    (∀ k ∈ (get_nearby_hashes 6 8 4 2 2).tail,
      ∃ z1 z2 z3 : ℤ,
        0 ≤ z1 ∧ z1 < 1024 ∧ 0 ≤ z2 ∧ z2 < 1024 ∧ 0 ≤ z3 ∧ z3 < 1024 ∧
        k = hash_function z1.toNat z2.toNat z3.toNat ∧
        (((z1 = (quantize_value 6 2 : ℤ) + 2 ∨ z1 = (quantize_value 6 2 : ℤ) - 2) ∧
            z2 = (quantize_value 8 2 : ℤ) ∧ z3 = (quantize_value 4 2 : ℤ)) ∨
         ((z2 = (quantize_value 8 2 : ℤ) + 2 ∨ z2 = (quantize_value 8 2 : ℤ) - 2) ∧
            z1 = (quantize_value 6 2 : ℤ) ∧ z3 = (quantize_value 4 2 : ℤ)) ∨
         ((z3 = (quantize_value 4 2 : ℤ) + 2 ∨ z3 = (quantize_value 4 2 : ℤ) - 2) ∧
            z1 = (quantize_value 6 2 : ℤ) ∧ z2 = (quantize_value 8 2 : ℤ)))) ∧
    4202500 ∈ get_nearby_hashes 6 8 4 2 2 :=
  C4_neighbourhood 6 8 4 (by decide) (by decide) (by decide)

/-! ### Pair combiner, from create_fingerprint_pairs in audio-fingerprint.py -/

/-- A peak is a (time frame, frequency bin) pair. -/
abbrev Peak := ℤ × ℕ

/-- A pair record (f_anchor, f_target, delta_t, t_anchor). -/
abbrev PairRec := ℕ × ℕ × ℤ × ℤ

/-- The sort key used by create_fingerprint_pairs: ascending time. -/
def peakLE (p q : Peak) : Prop := p.1 ≤ q.1

instance : DecidableRel peakLE := fun p q => inferInstanceAs (Decidable (p.1 ≤ q.1))

instance : IsTotal Peak peakLE := ⟨fun p q => le_total p.1 q.1⟩

instance : IsTrans Peak peakLE := ⟨fun _ _ _ h1 h2 => le_trans h1 h2⟩

/-- The inner scan of create_fingerprint_pairs: walk the peaks after the
anchor and stop at the first peak whose time difference leaves the target
zone. -/
def innerScan (anchor : Peak) : List Peak → ℤ → List PairRec
  | [], _ => []
  | t :: tl, tz =>
    if tz < t.1 - anchor.1 then []
    else (anchor.2, t.2, t.1 - anchor.1, anchor.1) :: innerScan anchor tl tz

/-- The outer loop of create_fingerprint_pairs over every anchor position. -/
def pairsScan : List Peak → ℤ → List PairRec
  | [], _ => []
  | p :: tl, tz => innerScan p tl tz ++ pairsScan tl tz

/-- The pair combiner from audio-fingerprint.py: sort peaks by time, then for
every anchor emit one record per later peak inside the target zone, stopping
the inner scan at the first later peak outside the zone.  Returns the pair
list together with the sorted peak list, as the Python function does. -/
def create_fingerprint_pairs (fingerprint : List Peak) (target_zone_frames : ℤ) :
    List PairRec × List Peak :=
  let sorted_peaks := List.insertionSort peakLE fingerprint
  (pairsScan sorted_peaks target_zone_frames, sorted_peaks)

/-- Modelled from the claim words for C5: emit a record for every index pair
i strictly before j in the given list whose time difference is within the
target zone, scanning all later peaks with no early stop. -/
def pairsAllWithin : List Peak → ℤ → List PairRec
  | [], _ => []
  | p :: tl, tz =>
    ((tl.filter fun q => decide (q.1 - p.1 ≤ tz)).map
      fun q => (p.2, q.2, q.1 - p.1, p.1)) ++ pairsAllWithin tl tz

theorem innerScan_eq_filter {anchor : Peak} {tl : List Peak} {tz : ℤ}
    (hs : (anchor :: tl).Sorted peakLE) :
    innerScan anchor tl tz =
      (tl.filter fun q => decide (q.1 - anchor.1 ≤ tz)).map
        fun q => (anchor.2, q.2, q.1 - anchor.1, anchor.1) := by
  induction tl with
  | nil => rfl
  | cons t tl2 ih =>
    rw [innerScan]
    by_cases hgt : tz < t.1 - anchor.1
    · rw [if_pos hgt]
      have hfail : ∀ q ∈ t :: tl2, ¬ (q.1 - anchor.1 ≤ tz) := by
        intro q hq
        rcases List.mem_cons.mp hq with rfl | hq2
        · omega
        · have := List.rel_of_sorted_cons hs.of_cons q hq2
          have ht : t.1 ≤ q.1 := this
          omega
      have : (t :: tl2).filter (fun q => decide (q.1 - anchor.1 ≤ tz)) = [] := by
        rw [List.filter_eq_nil_iff]
        intro q hq
        simpa using hfail q hq
      rw [this, List.map_nil]
    · rw [if_neg hgt]
      have hsorted2 : (anchor :: tl2).Sorted peakLE := by
        refine List.Pairwise.cons ?_ hs.of_cons.of_cons
        intro b hb
        exact List.rel_of_sorted_cons hs b (List.mem_cons_of_mem t hb)
      rw [ih hsorted2, List.filter_cons, if_pos (by simpa using by omega : _)]
      rfl

theorem pairsScan_eq_pairsAllWithin {l : List Peak} {tz : ℤ}
    (hs : l.Sorted peakLE) :
    pairsScan l tz = pairsAllWithin l tz := by
  induction l with
  | nil => rfl
  | cons p tl ih =>
    rw [pairsScan, pairsAllWithin, innerScan_eq_filter hs, ih hs.of_cons]

theorem mem_pairsAllWithin {l : List Peak} {tz : ℤ} {r : PairRec} :
    r ∈ pairsAllWithin l tz ↔
      ∃ i j, ∃ (hi : i < l.length) (hj : j < l.length), i < j ∧
        (l.get ⟨j, hj⟩).1 - (l.get ⟨i, hi⟩).1 ≤ tz ∧
        r = ((l.get ⟨i, hi⟩).2, (l.get ⟨j, hj⟩).2,
             (l.get ⟨j, hj⟩).1 - (l.get ⟨i, hi⟩).1, (l.get ⟨i, hi⟩).1) := by
  induction l with
  | nil =>
    simp [pairsAllWithin]
  | cons p tl ih =>
    rw [pairsAllWithin, List.mem_append, ih]
    constructor
    · rintro (hhead | ⟨i, j, hi, hj, hij, hzone, hr⟩)
      · obtain ⟨q, hq, hr⟩ := List.mem_map.mp hhead
        obtain ⟨hqtl, hpred⟩ := List.mem_filter.mp hq
        obtain ⟨⟨j, hjlen⟩, hget⟩ := List.mem_iff_get.mp hqtl
        have hp := decide_eq_true_eq.mp hpred
        refine ⟨0, j + 1, by simp, by simpa using Nat.succ_lt_succ hjlen,
          Nat.succ_pos j, ?_, ?_⟩
        · simp only [List.get_cons_succ, List.get_cons_zero]
          rw [hget]
          exact hp
        · simp only [List.get_cons_succ, List.get_cons_zero]
          rw [hget]
          exact hr.symm
      · exact ⟨i + 1, j + 1, Nat.succ_lt_succ hi, Nat.succ_lt_succ hj,
          Nat.succ_lt_succ hij, by simpa using hzone, by simpa using hr⟩
    · rintro ⟨i, j, hi, hj, hij, hzone, hr⟩
      match i, j with
      | 0, j + 1 =>
        left
        have hjlen : j < tl.length := by simpa using hj
        refine List.mem_map.mpr ⟨tl.get ⟨j, hjlen⟩, ?_, ?_⟩
        · refine List.mem_filter.mpr ⟨List.get_mem tl j hjlen, ?_⟩
          simp only [List.get_cons_succ, List.get_cons_zero] at hzone
          simpa using hzone
        · simp only [List.get_cons_succ, List.get_cons_zero] at hr
          exact hr.symm
      | i + 1, j + 1 =>
        right
        refine ⟨i, j, by simpa using hi, by simpa using hj, by omega, ?_, ?_⟩
        · simpa using hzone
        · simpa using hr

/-- Claim C5: the pair combiner emits exactly the records
(f_i, f_j, t_j - t_i, t_i) for index pairs i strictly before j in the
time-sorted peak list whose time difference is at most 50, the early stop of
the inner scan notwithstanding, and every emitted record has a time delta
between 0 and 50. -/
theorem C5_pair_combiner (fingerprint : List Peak) :
    (create_fingerprint_pairs fingerprint 50).1 =
      pairsAllWithin (create_fingerprint_pairs fingerprint 50).2 50 ∧
    (∀ r : PairRec,
      r ∈ (create_fingerprint_pairs fingerprint 50).1 ↔
        ∃ i j, ∃ (hi : i < (create_fingerprint_pairs fingerprint 50).2.length)
          (hj : j < (create_fingerprint_pairs fingerprint 50).2.length),
          i < j ∧
          ((create_fingerprint_pairs fingerprint 50).2.get ⟨j, hj⟩).1 -
            ((create_fingerprint_pairs fingerprint 50).2.get ⟨i, hi⟩).1 ≤ 50 ∧
          r = (((create_fingerprint_pairs fingerprint 50).2.get ⟨i, hi⟩).2,
               ((create_fingerprint_pairs fingerprint 50).2.get ⟨j, hj⟩).2,
               ((create_fingerprint_pairs fingerprint 50).2.get ⟨j, hj⟩).1 -
                 ((create_fingerprint_pairs fingerprint 50).2.get ⟨i, hi⟩).1,
               ((create_fingerprint_pairs fingerprint 50).2.get ⟨i, hi⟩).1)) ∧
    (∀ r ∈ (create_fingerprint_pairs fingerprint 50).1,
      0 ≤ r.2.2.1 ∧ r.2.2.1 ≤ 50) := by
  have hsorted : (List.insertionSort peakLE fingerprint).Sorted peakLE :=
    List.sorted_insertionSort peakLE fingerprint
  have heq : (create_fingerprint_pairs fingerprint 50).1 =
      pairsAllWithin (create_fingerprint_pairs fingerprint 50).2 50 :=
    pairsScan_eq_pairsAllWithin hsorted
  refine ⟨heq, fun r => by rw [heq]; exact mem_pairsAllWithin, ?_⟩
  intro r hr
  rw [heq] at hr
  obtain ⟨i, j, hi, hj, hij, hzone, hrval⟩ := mem_pairsAllWithin.mp hr
  have hmono : peakLE ((create_fingerprint_pairs fingerprint 50).2.get ⟨i, hi⟩)
      ((create_fingerprint_pairs fingerprint 50).2.get ⟨j, hj⟩) :=
    List.Sorted.rel_get_of_lt hsorted (by exact hij)
  have htle : ((create_fingerprint_pairs fingerprint 50).2.get ⟨i, hi⟩).1 ≤
      ((create_fingerprint_pairs fingerprint 50).2.get ⟨j, hj⟩).1 := hmono
  rw [hrval]
  constructor
  · simp only
    omega
  · simpa using hzone

/-! ### Association lists modelling Python dicts (insertion-ordered) -/

/-- Dict lookup: the value stored at the first occurrence of the key. -/
def alGet {α β : Type _} [DecidableEq α] : List (α × β) → α → Option β
  | [], _ => none
  | e :: tl, k => if e.1 = k then some e.2 else alGet tl k

/-- Dict write: update the entry in place when the key is present, append a new
entry at the end otherwise, exactly as Python dict assignment behaves with
respect to insertion order. -/
def upsert {α β : Type _} [DecidableEq α] :
    List (α × β) → α → (Option β → β) → List (α × β)
  | [], k, f => [(k, f none)]
  | e :: tl, k, f =>
    if e.1 = k then (e.1, f (some e.2)) :: tl else e :: upsert tl k f

theorem alGet_upsert_self {α β : Type _} [DecidableEq α]
    (l : List (α × β)) (k : α) (f : Option β → β) :
    alGet (upsert l k f) k = some (f (alGet l k)) := by
  induction l with
  | nil => simp [alGet, upsert]
  | cons e tl ih =>
    by_cases h : e.1 = k
    · rw [upsert, if_pos h, alGet, if_pos h, alGet, if_pos h]
    · rw [upsert, if_neg h, alGet, if_neg h, alGet, if_neg h, ih]

theorem alGet_upsert_ne {α β : Type _} [DecidableEq α]
    (l : List (α × β)) (k k' : α) (f : Option β → β) (h : k' ≠ k) :
    alGet (upsert l k f) k' = alGet l k' := by
  induction l with
  | nil => simp [alGet, upsert, Ne.symm h]
  | cons e tl ih =>
    by_cases he : e.1 = k
    · rw [upsert, if_pos he, alGet, alGet]
      have : ¬ e.1 = k' := fun hk => h (hk ▸ he ▸ rfl)
      rw [if_neg (he ▸ this), if_neg this]
    · rw [upsert, if_neg he, alGet, alGet]
      by_cases he' : e.1 = k'
      · rw [if_pos he', if_pos he']
      · rw [if_neg he', if_neg he', ih]

theorem upsert_map_fst {α β : Type _} [DecidableEq α]
    (l : List (α × β)) (k : α) (f : Option β → β) :
    (upsert l k f).map Prod.fst =
      if k ∈ l.map Prod.fst then l.map Prod.fst else l.map Prod.fst ++ [k] := by
  induction l with
  | nil => simp [upsert]
  | cons e tl ih =>
    by_cases h : e.1 = k
    · rw [upsert, if_pos h]
      simp [h]
    · rw [upsert, if_neg h]
      simp only [List.map_cons, List.mem_cons, ih]
      have : ¬ k = e.1 := fun hk => h hk.symm
      by_cases hm : k ∈ tl.map Prod.fst
      · simp [hm, this]
      · simp [hm, this]

theorem alGet_eq_none_iff {α β : Type _} [DecidableEq α]
    (l : List (α × β)) (k : α) :
    alGet l k = none ↔ k ∉ l.map Prod.fst := by
  induction l with
  | nil => simp [alGet]
  | cons e tl ih =>
    by_cases h : e.1 = k
    · simp [alGet, h]
    · simp only [alGet, if_neg h, List.map_cons, List.mem_cons, ih]
      have : ¬ k = e.1 := fun hk => h hk.symm
      simp [this]

theorem alGet_mem {α β : Type _} [DecidableEq α]
    {l : List (α × β)} {k : α} {v : β} (h : alGet l k = some v) : (k, v) ∈ l := by
  induction l with
  | nil => simp [alGet] at h
  | cons e tl ih =>
    by_cases he : e.1 = k
    · rw [alGet, if_pos he] at h
      exact List.mem_cons.mpr
        (Or.inl (Prod.ext_iff.mpr ⟨he.symm, (Option.some.inj h).symm⟩))
    · rw [alGet, if_neg he] at h
      exact List.mem_cons_of_mem e (ih h)

/-! ### The matcher, from match_song in song_matcher.py -/

/-- The inverted index: hash key to list of (track id, anchor time) postings. -/
abbrev DB := List (ℕ × List (ℕ × ℤ))

/-- A query pair record (f1, f2, delta_t, query_time). -/
abbrev QueryPair := ℕ × ℕ × ℕ × ℤ

/-- The two accumulators of the matcher scan: match_counts (per track, a dict
from binned time offset to count) and matched_hashes (per track, the set of
query pair indices, kept as a duplicate-free list). -/
structure MatchState where
  counts : List (ℕ × List (ℤ × ℕ))
  hits : List (ℕ × List ℕ)

/-- Adding an element to a Python set of indices: a no-op when present. -/
def insertHit (s : List ℕ) (i : ℕ) : List ℕ :=
  if i ∈ s then s else s ++ [i]

/-- Processing one posting (track_id, db_time) of one query pair, from the
inner loop of match_song. -/
def processPosting (idx : ℕ) (query_time : ℤ) (st : MatchState)
    (p : ℕ × ℤ) : MatchState :=
  let binned_time_diff := (query_time - p.2).fdiv 3 * 3
  { counts := upsert st.counts p.1 fun o =>
      upsert (o.getD []) binned_time_diff fun c => c.getD 0 + 1
    hits := upsert st.hits p.1 fun o => insertHit (o.getD []) idx }

/-- Looking up one hash variant in the index and folding over its postings. -/
def processKey (db : DB) (idx : ℕ) (query_time : ℤ) (st : MatchState)
    (k : ℕ) : MatchState :=
  ((alGet db k).getD []).foldl (processPosting idx query_time) st

/-- Processing one indexed query pair: fold over all its nearby hash keys. -/
def processPair (db : DB) (st : MatchState) (ip : ℕ × QueryPair) : MatchState :=
  (get_nearby_hashes ip.2.1 ip.2.2.1 ip.2.2.2.1 2 2).foldl
    (processKey db ip.1 ip.2.2.2.2) st

/-- The whole matcher scan over the enumerated query pairs. -/
def runScan (db : DB) (pairs : List QueryPair) : MatchState :=
  pairs.enum.foldl (processPair db) ⟨[], []⟩

/-- max over the values of a per-track histogram, used on non-empty dicts. -/
def peakCount : List (ℤ × ℕ) → ℕ
  | [] => 0
  | e :: tl => tl.foldl (fun m x => Nat.max m x.2) e.2

/-- Python max over dict items with the count as key: the first maximal item
in insertion order. -/
def maxItem : List (ℤ × ℕ) → Option (ℤ × ℕ)
  | [] => none
  | e :: tl => some (tl.foldl (fun b x => if b.2 < x.2 then x else b) e)

/-- One step of the best-track selection loop of match_song: a track replaces
the current best only when its peak histogram count strictly exceeds it. -/
def selectStep (acc : Option ℕ × ℕ × Option ℤ) (entry : ℕ × List (ℤ × ℕ)) :
    Option ℕ × ℕ × Option ℤ :=
  let track_max_count := peakCount entry.2
  if acc.2.1 < track_max_count then
    (some entry.1, track_max_count, (maxItem entry.2).map Prod.fst)
  else acc

/-- The best-track selection loop of match_song over the accumulated counts. -/
def selectBest (counts : List (ℕ × List (ℤ × ℕ))) : Option ℕ × ℕ × Option ℤ :=
  counts.foldl selectStep (none, 0, none)

/-- The matcher from song_matcher.py, returning (track metadata or none,
confidence, best binned time offset).  The metadata store is an association
list from track id to a free-form record type. -/
def match_song {μ : Type _} (db : DB) (metadata : List (ℕ × μ))
    (pairs : List QueryPair) : Option μ × ℚ × Option ℤ :=
  let st := runScan db pairs
  let best := selectBest st.counts
  let unique_hash_matches : ℕ :=
    match best.1 with
    | none => 0
    | some tid => ((alGet st.hits tid).getD []).length
  let confidence : ℚ :=
    if pairs = [] then 0 else (unique_hash_matches : ℚ) / (pairs.length : ℚ)
  let track_metadata : Option μ :=
    match best.1 with
    | none => none
    | some tid => alGet metadata tid
  (track_metadata, confidence, best.2.2)

/-- A query pair produces at least one posting for track t exactly when some
nearby hash key of the pair has a posting for t in the index. -/
def pairHits (db : DB) (p : QueryPair) (t : ℕ) : Bool :=
  (get_nearby_hashes p.1 p.2.1 p.2.2.1 2 2).any fun k =>
    ((alGet db k).getD []).any fun q => q.1 == t

theorem insertHit_idem (s : List ℕ) (i : ℕ) :
    insertHit (insertHit s i) i = insertHit s i := by
  by_cases h : i ∈ s
  · simp [insertHit, h]
  · simp [insertHit, h]

theorem foldPostings_hits (idx : ℕ) (qt : ℤ) (ps : List (ℕ × ℤ))
    (st : MatchState) (t : ℕ) :
    alGet ((ps.foldl (processPosting idx qt) st).hits) t =
      if ps.any (fun q => q.1 == t) then
        some (insertHit ((alGet st.hits t).getD []) idx)
      else alGet st.hits t := by
  induction ps generalizing st with
  | nil => simp
  | cons q ps ih =>
    rw [List.foldl_cons, ih]
    by_cases hq : q.1 = t
    · subst hq
      have h1 : alGet ((processPosting idx qt st q).hits) q.1 =
          some (insertHit ((alGet st.hits q.1).getD []) idx) := by
        simp only [processPosting]
        exact alGet_upsert_self st.hits q.1 _
      rw [h1]
      by_cases hany : ps.any (fun q' => q'.1 == q.1) = true
      · simp [hany, insertHit_idem]
      · simp only [Bool.not_eq_true] at hany
        simp [hany]
    · have h1 : alGet ((processPosting idx qt st q).hits) t = alGet st.hits t := by
        simp only [processPosting]
        exact alGet_upsert_ne st.hits q.1 t _ (Ne.symm hq)
      rw [h1, List.any_cons]
      have : (q.1 == t) = false := by simpa using hq
      rw [this, Bool.false_or]

theorem foldKeys_hits (db : DB) (idx : ℕ) (qt : ℤ) (keys : List ℕ)
    (st : MatchState) (t : ℕ) :
    alGet ((keys.foldl (processKey db idx qt) st).hits) t =
      if keys.any (fun k => ((alGet db k).getD []).any fun q => q.1 == t) then
        some (insertHit ((alGet st.hits t).getD []) idx)
      else alGet st.hits t := by
  induction keys generalizing st with
  | nil => simp
  | cons k keys ih =>
    rw [List.foldl_cons, ih]
    have h1 : alGet ((processKey db idx qt st k).hits) t =
        if ((alGet db k).getD []).any (fun q => q.1 == t) then
          some (insertHit ((alGet st.hits t).getD []) idx)
        else alGet st.hits t := foldPostings_hits idx qt _ st t
    by_cases hk : ((alGet db k).getD []).any (fun q => q.1 == t) = true
    · rw [if_pos hk] at h1
      rw [h1]
      by_cases hany :
          keys.any (fun k => ((alGet db k).getD []).any fun q => q.1 == t) = true
      · simp [hany, hk, insertHit_idem]
      · simp only [Bool.not_eq_true] at hany
        simp [hany, hk]
    · simp only [Bool.not_eq_true] at hk
      rw [hk, if_neg (by simp)] at h1
      rw [h1, List.any_cons, hk, Bool.false_or]

theorem processPair_hits (db : DB) (st : MatchState) (ip : ℕ × QueryPair)
    (t : ℕ) :
    alGet ((processPair db st ip).hits) t =
      if pairHits db ip.2 t then
        some (insertHit ((alGet st.hits t).getD []) ip.1)
      else alGet st.hits t := by
  simp only [processPair, pairHits]
  exact foldKeys_hits db ip.1 ip.2.2.2.2 _ st t

theorem scan_hits (db : DB) (ips : List (ℕ × QueryPair))
    (hnd : (ips.map Prod.fst).Nodup) (t : ℕ) :
    alGet ((ips.foldl (processPair db) ⟨[], []⟩).hits) t =
      if (ips.filter fun ip => pairHits db ip.2 t) = [] then none
      else some ((ips.filter fun ip => pairHits db ip.2 t).map Prod.fst) := by
  induction ips using List.reverseRecOn with
  | nil => simp [alGet]
  | append_singleton l e ih =>
    have hndl : (l.map Prod.fst).Nodup := by
      rw [List.map_append] at hnd
      exact hnd.of_append_left
    have hnotmem : e.1 ∉ l.map Prod.fst := by
      rw [List.map_append, List.nodup_append] at hnd
      intro hmem
      exact hnd.2.2 hmem (by simp)
    rw [List.foldl_append, List.foldl_cons, List.foldl_nil, processPair_hits,
      ih hndl, List.filter_append]
    by_cases hph : pairHits db e.2 t = true
    · rw [if_pos hph]
      have hfe : [e].filter (fun ip => pairHits db ip.2 t) = [e] := by
        simp [List.filter, hph]
      rw [hfe]
      by_cases hfl : (l.filter fun ip => pairHits db ip.2 t) = []
      · rw [if_pos hfl, hfl]
        simp [insertHit]
      · rw [if_neg hfl, if_neg (by simp)]
        have hsub : ((l.filter fun ip => pairHits db ip.2 t).map Prod.fst) ⊆
            l.map Prod.fst :=
          List.map_subset Prod.fst (fun x hx => List.mem_of_mem_filter hx)
        have hnm : e.1 ∉ ((l.filter fun ip => pairHits db ip.2 t).map Prod.fst) :=
          fun hmem => hnotmem (hsub hmem)
        simp only [Option.getD_some, insertHit, if_neg hnm, List.map_append]
        simp
    · simp only [Bool.not_eq_true] at hph
      rw [hph]
      have hfe : [e].filter (fun ip => pairHits db ip.2 t) = [] := by
        simp [List.filter, hph]
      rw [hfe, List.append_nil, if_neg (by simp)]

/-- A predicate preserved by each step survives a left fold. -/
theorem foldl_preserve {σ α : Type _} (P : σ → Prop) (f : σ → α → σ)
    (hf : ∀ s a, P s → P (f s a)) :
    ∀ (l : List α) (s : σ), P s → P (l.foldl f s)
  | [], _, h => h
  | a :: l, s, h => foldl_preserve P f hf l (f s a) (hf s a h)

theorem processPosting_keys (idx : ℕ) (qt : ℤ) (st : MatchState) (q : ℕ × ℤ)
    (h : st.counts.map Prod.fst = st.hits.map Prod.fst) :
    (processPosting idx qt st q).counts.map Prod.fst =
      (processPosting idx qt st q).hits.map Prod.fst := by
  simp only [processPosting]
  rw [upsert_map_fst, upsert_map_fst, h]

theorem scan_keys (db : DB) (ips : List (ℕ × QueryPair)) :
    ((ips.foldl (processPair db) ⟨[], []⟩).counts).map Prod.fst =
      ((ips.foldl (processPair db) ⟨[], []⟩).hits).map Prod.fst := by
  refine foldl_preserve
    (fun st : MatchState => st.counts.map Prod.fst = st.hits.map Prod.fst)
    (processPair db) ?_ ips ⟨[], []⟩ rfl
  intro st ip hst
  refine foldl_preserve
    (fun st : MatchState => st.counts.map Prod.fst = st.hits.map Prod.fst)
    (processKey db ip.1 ip.2.2.2.2) ?_ _ st hst
  intro st2 k hst2
  refine foldl_preserve
    (fun st : MatchState => st.counts.map Prod.fst = st.hits.map Prod.fst)
    (processPosting ip.1 ip.2.2.2.2) ?_ _ st2 hst2
  intro st3 q hst3
  exact processPosting_keys ip.1 ip.2.2.2.2 st3 q hst3

theorem maxFold_snd (a : ℤ × ℕ) (tl : List (ℤ × ℕ)) :
    (tl.foldl (fun b x => if b.2 < x.2 then x else b) a).2 =
      tl.foldl (fun m x => Nat.max m x.2) a.2 := by
  induction tl generalizing a with
  | nil => rfl
  | cons x tl ih =>
    rw [List.foldl_cons, List.foldl_cons]
    by_cases hx : a.2 < x.2
    · rw [if_pos hx, ih]
      have : Nat.max a.2 x.2 = x.2 := Nat.max_eq_right (Nat.le_of_lt hx)
      rw [this]
    · rw [if_neg hx, ih]
      have : Nat.max a.2 x.2 = a.2 := Nat.max_eq_left (Nat.le_of_not_lt hx)
      rw [this]

theorem maxFold_decomp (a : ℤ × ℕ) (tl : List (ℤ × ℕ)) :
    ∃ m1 m2, a :: tl = m1 ++ (tl.foldl (fun b x => if b.2 < x.2 then x else b) a) :: m2 ∧
      (∀ x ∈ m1, x.2 < (tl.foldl (fun b x => if b.2 < x.2 then x else b) a).2) ∧
      (∀ x ∈ m2, x.2 ≤ (tl.foldl (fun b x => if b.2 < x.2 then x else b) a).2) := by
  induction tl generalizing a with
  | nil => exact ⟨[], [], rfl, by simp, by simp⟩
  | cons x tl ih =>
    rw [List.foldl_cons]
    by_cases hx : a.2 < x.2
    · rw [if_pos hx]
      obtain ⟨m1, m2, hdec, hlt, hle⟩ := ih x
      have hseed : x.2 ≤ (tl.foldl (fun b x => if b.2 < x.2 then x else b) x).2 := by
        rw [maxFold_snd]
        have : ∀ (l : List (ℤ × ℕ)) (s : ℕ), s ≤ l.foldl (fun m y => Nat.max m y.2) s := by
          intro l
          induction l with
          | nil => intro s; exact le_refl s
          | cons y l ihl =>
            intro s
            rw [List.foldl_cons]
            exact le_trans (Nat.le_max_left s y.2) (ihl (Nat.max s y.2))
        exact this tl x.2
      refine ⟨a :: m1, m2, by rw [hdec]; rfl, ?_, hle⟩
      intro z hz
      rcases List.mem_cons.mp hz with rfl | hz2
      · omega
      · exact hlt z hz2
    · rw [if_neg hx]
      obtain ⟨m1, m2, hdec, hlt, hle⟩ := ih a
      match m1, hdec with
      | [], hdec =>
        have ha : a = tl.foldl (fun b x => if b.2 < x.2 then x else b) a := by
          simpa using congrArg (fun l => l.headI) hdec
        have htl : tl = m2 := by
          simpa using congrArg List.tail hdec
        refine ⟨[], x :: tl, ?_, by simp, ?_⟩
        · rw [← ha]
          rfl
        · intro z hz
          rcases List.mem_cons.mp hz with rfl | hz2
          · rw [← ha]; omega
          · rw [htl] at hz2; exact hle z hz2
      | a' :: m1', hdec =>
        have ha : a = a' := by
          simpa using congrArg List.headI hdec
        have htl : tl = m1' ++ (tl.foldl (fun b x => if b.2 < x.2 then x else b) a) :: m2 := by
          simpa using congrArg List.tail hdec
        refine ⟨a :: x :: m1', m2, ?_, ?_, hle⟩
        · rw [List.cons_append, List.cons_append, ← htl]
        · intro z hz
          have halt : a.2 < (tl.foldl (fun b x => if b.2 < x.2 then x else b) a).2 := by
            have h1 := hlt a' (by simp)
            have h2 : a.2 = a'.2 := congrArg Prod.snd ha
            omega
          rcases List.mem_cons.mp hz with rfl | hz2
          · exact halt
          · rcases List.mem_cons.mp hz2 with rfl | hz3
            · omega
            · exact hlt z (List.mem_cons_of_mem a' hz3)

theorem maxItem_char {tds : List (ℤ × ℕ)} {e : ℤ × ℕ}
    (h : maxItem tds = some e) :
    e.2 = peakCount tds ∧
      ∃ m1 m2, tds = m1 ++ e :: m2 ∧
        (∀ x ∈ m1, x.2 < e.2) ∧ (∀ x ∈ m2, x.2 ≤ e.2) := by
  match tds, h with
  | a :: tl, h =>
    rw [maxItem] at h
    obtain rfl := Option.some.inj h
    exact ⟨maxFold_snd a tl, maxFold_decomp a tl⟩

theorem maxItem_isSome {tds : List (ℤ × ℕ)} (h : tds ≠ []) :
    ∃ e, maxItem tds = some e := by
  match tds, h with
  | a :: tl, _ => exact ⟨_, rfl⟩

theorem peakCount_pos_ne_nil {tds : List (ℤ × ℕ)} (h : 0 < peakCount tds) :
    tds ≠ [] := by
  intro hnil
  rw [hnil] at h
  simp [peakCount] at h

/-- The invariant carried by the best-track selection loop: either nothing has
been selected yet and every processed track has an empty histogram, or the
current best is the first processed track attaining the running maximum, and
its offset is the first histogram key attaining that track maximum. -/
def SelInv (processed : List (ℕ × List (ℤ × ℕ)))
    (acc : Option ℕ × ℕ × Option ℤ) : Prop :=
  (acc = (none, 0, none) ∧ ∀ e ∈ processed, peakCount e.2 = 0) ∨
  (∃ tid c off tds l1 l2, acc = (some tid, c, some off) ∧ 0 < c ∧
    processed = l1 ++ (tid, tds) :: l2 ∧ peakCount tds = c ∧
    maxItem tds = some (off, c) ∧
    (∀ e ∈ l1, peakCount e.2 < c) ∧ (∀ e ∈ l2, peakCount e.2 ≤ c))

theorem selInv_step (processed : List (ℕ × List (ℤ × ℕ)))
    (acc : Option ℕ × ℕ × Option ℤ) (entry : ℕ × List (ℤ × ℕ))
    (h : SelInv processed acc) :
    SelInv (processed ++ [entry]) (selectStep acc entry) := by
  rcases h with ⟨hacc, hall⟩ |
    ⟨tid, c, off, tds, l1, l2, hacc, hc, hdec, hpeak, hmax, hlt, hle⟩
  · subst hacc
    by_cases hpos : 0 < peakCount entry.2
    · obtain ⟨m, hm⟩ := maxItem_isSome (peakCount_pos_ne_nil hpos)
      obtain ⟨hm2, -⟩ := maxItem_char hm
      right
      refine ⟨entry.1, peakCount entry.2, m.1, entry.2, processed, [],
        ?_, hpos, by simp, rfl, ?_, fun e he => lt_of_eq_of_lt (hall e he) hpos,
        by simp⟩
      · simp only [selectStep]
        rw [if_pos hpos, hm]
        rfl
      · exact hm.trans (by rw [← hm2])
    · left
      have hz : peakCount entry.2 = 0 := Nat.eq_zero_of_not_pos hpos
      refine ⟨?_, ?_⟩
      · simp only [selectStep]
        rw [if_neg hpos]
      · intro e he
        rcases List.mem_append.mp he with he1 | he2
        · exact hall e he1
        · rw [List.mem_singleton.mp he2, hz]
  · subst hacc
    by_cases hgt : c < peakCount entry.2
    · obtain ⟨m, hm⟩ := maxItem_isSome
        (peakCount_pos_ne_nil (show 0 < peakCount entry.2 by omega))
      obtain ⟨hm2, -⟩ := maxItem_char hm
      right
      refine ⟨entry.1, peakCount entry.2, m.1, entry.2, processed, [],
        ?_, by omega, by simp, rfl, ?_, ?_, by simp⟩
      · simp only [selectStep]
        rw [if_pos hgt, hm]
        rfl
      · exact hm.trans (by rw [← hm2])
      · intro e he
        rw [hdec] at he
        rcases List.mem_append.mp he with he1 | he2
        · exact lt_trans (hlt e he1) hgt
        · rcases List.mem_cons.mp he2 with rfl | he3
          · simpa [hpeak] using hgt
          · exact lt_of_le_of_lt (hle e he3) hgt
    · right
      refine ⟨tid, c, off, tds, l1, l2 ++ [entry], ?_, hc, ?_, hpeak, hmax,
        hlt, ?_⟩
      · simp only [selectStep]
        rw [if_neg hgt]
      · rw [hdec, List.append_assoc, List.cons_append]
      · intro e he
        rcases List.mem_append.mp he with he1 | he2
        · exact hle e he1
        · rw [List.mem_singleton.mp he2]
          omega

theorem selInv_fold (l : List (ℕ × List (ℤ × ℕ)))
    (processed : List (ℕ × List (ℤ × ℕ))) (acc : Option ℕ × ℕ × Option ℤ)
    (h : SelInv processed acc) :
    SelInv (processed ++ l) (l.foldl selectStep acc) := by
  induction l generalizing processed acc with
  | nil => simpa using h
  | cons e tl ih =>
    rw [List.foldl_cons]
    have hstep := selInv_step processed acc e h
    have := ih (processed ++ [e]) (selectStep acc e) hstep
    rwa [List.append_assoc, List.singleton_append] at this

theorem selectBest_inv (counts : List (ℕ × List (ℤ × ℕ))) :
    SelInv counts (selectBest counts) := by
  have := selInv_fold counts [] (none, 0, none)
    (Or.inl ⟨rfl, by simp⟩)
  simpa [selectBest] using this

theorem selectBest_some {counts : List (ℕ × List (ℤ × ℕ))} {tid : ℕ} {c : ℕ}
    {offOpt : Option ℤ} (h : selectBest counts = (some tid, c, offOpt)) :
    0 < c ∧ ∃ off tds l1 l2, offOpt = some off ∧
      counts = l1 ++ (tid, tds) :: l2 ∧ peakCount tds = c ∧
      maxItem tds = some (off, c) ∧
      (∀ e ∈ l1, peakCount e.2 < c) ∧ (∀ e ∈ l2, peakCount e.2 ≤ c) := by
  have hinv := selectBest_inv counts
  rw [h] at hinv
  rcases hinv with ⟨hacc, -⟩ |
    ⟨tid', c', off, tds, l1, l2, hacc, hc, hdec, hpeak, hmax, hlt, hle⟩
  · exact absurd (congrArg (fun x => x.1) hacc) (by simp)
  · have h1 : some tid = some tid' := congrArg (fun x => x.1) hacc
    have h2 : c = c' := congrArg (fun x => x.2.1) hacc
    have h3 : offOpt = some off := congrArg (fun x => x.2.2) hacc
    obtain rfl := Option.some.inj h1
    subst h2
    exact ⟨hc, off, tds, l1, l2, h3, hdec, hpeak, hmax, hlt, hle⟩

theorem selectBest_none {counts : List (ℕ × List (ℤ × ℕ))} {c : ℕ}
    {offOpt : Option ℤ} (h : selectBest counts = (none, c, offOpt)) :
    c = 0 ∧ offOpt = none ∧ ∀ e ∈ counts, peakCount e.2 = 0 := by
  have hinv := selectBest_inv counts
  rw [h] at hinv
  rcases hinv with ⟨hacc, hall⟩ |
    ⟨tid', c', off, tds, l1, l2, hacc, hc, hdec, hpeak, hmax, hlt, hle⟩
  · have h2 : c = 0 := congrArg (fun x => x.2.1) hacc
    have h3 : offOpt = none := congrArg (fun x => x.2.2) hacc
    exact ⟨h2, h3, hall⟩
  · exact absurd (congrArg (fun x => x.1) hacc) (by simp)

theorem match_song_track {μ : Type _} (db : DB) (md : List (ℕ × μ))
    (pairs : List QueryPair) :
    (match_song db md pairs).1 =
      (selectBest (runScan db pairs).counts).1.elim none fun tid =>
        alGet md tid := by
  cases hb : (selectBest (runScan db pairs).counts).1 with
  | none => simp [match_song, hb]
  | some tid => simp [match_song, hb]

theorem match_song_offset {μ : Type _} (db : DB) (md : List (ℕ × μ))
    (pairs : List QueryPair) :
    (match_song db md pairs).2.2 = (selectBest (runScan db pairs).counts).2.2 :=
  rfl

theorem match_song_conf_def {μ : Type _} (db : DB) (md : List (ℕ × μ))
    (pairs : List QueryPair) :
    (match_song db md pairs).2.1 =
      if pairs = [] then 0 else
        ((((selectBest (runScan db pairs).counts).1.elim 0 fun tid =>
            ((alGet (runScan db pairs).hits tid).getD []).length) : ℕ) : ℚ)
          / (pairs.length : ℚ) := by
  cases hb : (selectBest (runScan db pairs).counts).1 with
  | none => simp [match_song, hb]
  | some tid => simp [match_song, hb]

theorem runScan_unfold (db : DB) (pairs : List QueryPair) :
    runScan db pairs = pairs.enum.foldl (processPair db) ⟨[], []⟩ := rfl

theorem runScan_hits_length (db : DB) (pairs : List QueryPair) (t : ℕ) :
    ((alGet (runScan db pairs).hits t).getD []).length =
      (pairs.enum.filter fun ip => pairHits db ip.2 t).length := by
  rw [runScan_unfold, scan_hits db pairs.enum (List.nodup_enum_map_fst pairs) t]
  by_cases hf : (pairs.enum.filter fun ip => pairHits db ip.2 t) = []
  · rw [if_pos hf, hf]
    rfl
  · rw [if_neg hf]
    simp

theorem match_song_conf {μ : Type _} (db : DB) (md : List (ℕ × μ))
    (pairs : List QueryPair) :
    (match_song db md pairs).2.1 =
      if pairs = [] then 0 else
        ((((selectBest (runScan db pairs).counts).1.elim 0 fun tid =>
            (pairs.enum.filter fun ip => pairHits db ip.2 tid).length) : ℕ) : ℚ)
          / (pairs.length : ℚ) := by
  rw [match_song_conf_def db md pairs]
  by_cases hp : pairs = []
  · rw [if_pos hp, if_pos hp]
  · rw [if_neg hp, if_neg hp]
    cases hbest : (selectBest (runScan db pairs).counts).1 with
    | none => rfl
    | some t =>
      simp only [Option.elim]
      rw [runScan_hits_length db pairs t]

theorem selectBest_fst_some {counts : List (ℕ × List (ℤ × ℕ))} {tid : ℕ}
    (hb1 : (selectBest counts).1 = some tid) :
    0 < (selectBest counts).2.1 ∧ ∃ tds, (tid, tds) ∈ counts := by
  have hful : selectBest counts =
      (some tid, (selectBest counts).2.1, (selectBest counts).2.2) := by
    rw [← hb1]
  obtain ⟨hc, off, tds, l1, l2, -, hdecomp, -, -, -, -⟩ := selectBest_some hful
  refine ⟨hc, tds, ?_⟩
  rw [hdecomp]
  exact List.mem_append.mpr (Or.inr (List.mem_cons_self _ _))

theorem best_track_filter_ne_nil {db : DB} {pairs : List QueryPair} {t : ℕ}
    (hb1 : (selectBest (runScan db pairs).counts).1 = some t) :
    (pairs.enum.filter fun ip => pairHits db ip.2 t) ≠ [] := by
  obtain ⟨-, tds, hmem⟩ := selectBest_fst_some hb1
  have hkey : t ∈ ((runScan db pairs).counts).map Prod.fst :=
    List.mem_map.mpr ⟨(t, tds), hmem, rfl⟩
  have hkey2 : t ∈ ((runScan db pairs).hits).map Prod.fst := by
    rw [runScan_unfold] at hkey ⊢
    rw [← scan_keys db pairs.enum]
    exact hkey
  have hget : alGet (runScan db pairs).hits t ≠ none := by
    intro hnone
    exact (alGet_eq_none_iff _ t).mp hnone hkey2
  rw [runScan_unfold, scan_hits db pairs.enum (List.nodup_enum_map_fst pairs) t]
    at hget
  intro hf
  exact hget (if_pos hf)

theorem pairHits_exists_posting {db : DB} {p : QueryPair} {t : ℕ}
    (h : pairHits db p t = true) :
    ∃ k ps q, alGet db k = some ps ∧ q ∈ ps ∧ q.1 = t := by
  rw [pairHits, List.any_eq_true] at h
  obtain ⟨k, -, hq⟩ := h
  rw [List.any_eq_true] at hq
  obtain ⟨q, hqmem, hqt⟩ := hq
  cases hdb : alGet db k with
  | none =>
    rw [hdb] at hqmem
    simp at hqmem
  | some ps =>
    rw [hdb] at hqmem
    exact ⟨k, ps, q, hdb, by simpa using hqmem, by simpa using hqt⟩

/-- Claim C6: a query with an empty pair list returns the no-match sentinel:
no track, confidence 0, no time offset. -/
theorem C6_empty_query {μ : Type _} (db : DB) (metadata : List (ℕ × μ)) :
    match_song db metadata [] = (none, 0, none) := rfl

/-- Witness for C6 at a concrete database and metadata store. -/
theorem C6_empty_query_witness :
    match_song [((0 : ℕ), [((5 : ℕ), (0 : ℤ))])] [((5 : ℕ), (50 : ℕ))] [] =
      (none, 0, none) :=
  C6_empty_query [((0 : ℕ), [((5 : ℕ), (0 : ℤ))])] [((5 : ℕ), (50 : ℕ))]

/-- Counterexample to claim C2 as stated.  First scenario: both tracks 5 and 3
reach peak histogram count 1 (a tie), 3 is the smaller id, yet the matcher
returns the metadata of track 5 because track 5 was inserted into the counts
dict first.  Second scenario: for the single track 7 both binned offsets 3 and
0 reach count 1 (a tie), 0 is the smaller offset, yet the matcher returns
offset 3 because bin 3 was inserted first. -/
theorem C2_counterexample :
    (match_song [((0 : ℕ), [((5 : ℕ), (0 : ℤ)), (3, 0)])]
        [((3 : ℕ), (30 : ℕ)), (5, 50)]
        [((0 : ℕ), (0 : ℕ), (0 : ℕ), (0 : ℤ))]).1 = some 50 ∧
    alGet (runScan [((0 : ℕ), [((5 : ℕ), (0 : ℤ)), (3, 0)])]
        [((0 : ℕ), (0 : ℕ), (0 : ℕ), (0 : ℤ))]).counts 3 = some [((0 : ℤ), 1)] ∧
    alGet (runScan [((0 : ℕ), [((5 : ℕ), (0 : ℤ)), (3, 0)])]
        [((0 : ℕ), (0 : ℕ), (0 : ℕ), (0 : ℤ))]).counts 5 = some [((0 : ℤ), 1)] ∧
    (3 : ℕ) < 5 ∧
    (match_song [((0 : ℕ), [((7 : ℕ), (-3 : ℤ)), (7, 0)])] [((7 : ℕ), (70 : ℕ))]
        [((0 : ℕ), (0 : ℕ), (0 : ℕ), (0 : ℤ))]).2.2 = some 3 ∧
    alGet (runScan [((0 : ℕ), [((7 : ℕ), (-3 : ℤ)), (7, 0)])]
        [((0 : ℕ), (0 : ℕ), (0 : ℕ), (0 : ℤ))]).counts 7 =
      some [((3 : ℤ), 1), (0, 1)] ∧
    (0 : ℤ) < 3 := by decide

/-- Claim C2 as amended: when the selection loop picks a track, the returned
track is the metadata of the first track in counts insertion order whose peak
histogram count attains the maximum (every earlier track is strictly below it,
every later track at most equal), and the returned offset is the first binned
offset in that track histogram attaining the track maximum. -/
theorem C2_matcher_selection {μ : Type _} (db : DB) (metadata : List (ℕ × μ))
    (pairs : List QueryPair) (tid : ℕ) (c : ℕ) (off : ℤ)
    (h : selectBest (runScan db pairs).counts = (some tid, c, some off)) :
    (match_song db metadata pairs).1 = alGet metadata tid ∧
    (match_song db metadata pairs).2.2 = some off ∧
    0 < c ∧
    (∃ tds l1 l2, (runScan db pairs).counts = l1 ++ (tid, tds) :: l2 ∧
      peakCount tds = c ∧
      (∀ e ∈ l1, peakCount e.2 < c) ∧ (∀ e ∈ l2, peakCount e.2 ≤ c) ∧
      ∃ m1 m2, tds = m1 ++ (off, c) :: m2 ∧
        (∀ x ∈ m1, x.2 < c) ∧ (∀ x ∈ m2, x.2 ≤ c)) := by
  obtain ⟨hc, off', tds, l1, l2, hoff, hdec, hpeak, hmax, hlt, hle⟩ :=
    selectBest_some h
  obtain rfl := Option.some.inj hoff
  obtain ⟨hm2, m1, m2, hdec2, hlt2, hle2⟩ := maxItem_char hmax
  refine ⟨?_, ?_, hc, tds, l1, l2, hdec, hpeak, hlt, hle, m1, m2, hdec2, ?_, ?_⟩
  · rw [match_song_track, h]
    rfl
  · rw [match_song_offset, h]
  · intro x hx
    simpa using hlt2 x hx
  · intro x hx
    simpa using hle2 x hx

/-- Witness for the amended C2 at the concrete tied database of the
counterexample: track 5 wins with count 1 at offset 0. -/
theorem C2_matcher_selection_witness :
    (match_song [((0 : ℕ), [((5 : ℕ), (0 : ℤ)), (3, 0)])]
        [((3 : ℕ), (30 : ℕ)), (5, 50)]
        [((0 : ℕ), (0 : ℕ), (0 : ℕ), (0 : ℤ))]).1 =
      alGet [((3 : ℕ), (30 : ℕ)), (5, 50)] 5 ∧
    (match_song [((0 : ℕ), [((5 : ℕ), (0 : ℤ)), (3, 0)])]
        [((3 : ℕ), (30 : ℕ)), (5, 50)]
        [((0 : ℕ), (0 : ℕ), (0 : ℕ), (0 : ℤ))]).2.2 = some 0 ∧
    0 < 1 ∧
    (∃ tds l1 l2,
      (runScan [((0 : ℕ), [((5 : ℕ), (0 : ℤ)), (3, 0)])]
          [((0 : ℕ), (0 : ℕ), (0 : ℕ), (0 : ℤ))]).counts =
        l1 ++ ((5 : ℕ), tds) :: l2 ∧
      peakCount tds = 1 ∧
      (∀ e ∈ l1, peakCount e.2 < 1) ∧ (∀ e ∈ l2, peakCount e.2 ≤ 1) ∧
      ∃ m1 m2, tds = m1 ++ ((0 : ℤ), 1) :: m2 ∧
        (∀ x ∈ m1, x.2 < 1) ∧ (∀ x ∈ m2, x.2 ≤ 1)) :=
  C2_matcher_selection [((0 : ℕ), [((5 : ℕ), (0 : ℤ)), (3, 0)])]
    [((3 : ℕ), (30 : ℕ)), (5, 50)] [((0 : ℕ), (0 : ℕ), (0 : ℕ), (0 : ℤ))]
    5 1 0 (by decide)

/-- Claim C3: the confidence is the number of distinct query pair indices that
produced at least one posting for the winning track divided by the number of
query pairs (0 for an empty query), it always lies between 0 and 1, and under
the metadata-store invariant P4 a null returned track forces confidence 0. -/
theorem C3_confidence {μ : Type _} (db : DB) (metadata : List (ℕ × μ))
    (pairs : List QueryPair) :
    (match_song db metadata pairs).2.1 =
      (if pairs = [] then 0 else
        ((((selectBest (runScan db pairs).counts).1.elim 0 fun tid =>
            (pairs.enum.filter fun ip => pairHits db ip.2 tid).length) : ℕ) : ℚ)
          / (pairs.length : ℚ)) ∧
    0 ≤ (match_song db metadata pairs).2.1 ∧
    (match_song db metadata pairs).2.1 ≤ 1 ∧
    ((∀ e ∈ db, ∀ q ∈ e.2, ∃ m, alGet metadata q.1 = some m) →
      (match_song db metadata pairs).1 = none →
      (match_song db metadata pairs).2.1 = 0) := by
  have hconf := match_song_conf db metadata pairs
  refine ⟨hconf, ?_, ?_, ?_⟩
  · rw [hconf]
    by_cases hp : pairs = []
    · rw [if_pos hp]
    · rw [if_neg hp]
      exact div_nonneg (Nat.cast_nonneg _) (Nat.cast_nonneg _)
  · rw [hconf]
    by_cases hp : pairs = []
    · rw [if_pos hp]
      norm_num
    · rw [if_neg hp]
      have hlen : 0 < (pairs.length : ℚ) := by
        exact_mod_cast List.length_pos.mpr hp
      rw [div_le_one hlen]
      have hle : ((selectBest (runScan db pairs).counts).1.elim 0 fun tid =>
          (pairs.enum.filter fun ip => pairHits db ip.2 tid).length) ≤
            pairs.length := by
        cases hb : (selectBest (runScan db pairs).counts).1 with
        | none => simp
        | some t =>
          simp only [Option.elim]
          calc (pairs.enum.filter fun ip => pairHits db ip.2 t).length
              ≤ pairs.enum.length := List.length_filter_le _ _
            _ = pairs.length := List.enum_length
      exact_mod_cast hle
  · intro hmeta hnull
    cases hb : (selectBest (runScan db pairs).counts).1 with
    | none =>
      rw [hconf]
      by_cases hp : pairs = []
      · rw [if_pos hp]
      · rw [if_neg hp, hb]
        simp
    | some t =>
      exfalso
      rw [match_song_track, hb] at hnull
      simp only [Option.elim] at hnull
      have hfne := best_track_filter_ne_nil hb
      obtain ⟨ip, hip⟩ := List.exists_mem_of_ne_nil _ hfne
      obtain ⟨-, hph⟩ := List.mem_filter.mp hip
      obtain ⟨k, ps, q, hdb, hqmem, hqt⟩ := pairHits_exists_posting hph
      obtain ⟨m, hm⟩ := hmeta (k, ps) (alGet_mem hdb) q hqmem
      rw [hqt] at hm
      rw [hm] at hnull
      exact Option.noConfusion hnull

/-- Claim C10: a non-null returned track means its peak alignment count is at
least 1, some query pair produced a posting for it, and the confidence is at
least one over the number of query pairs, hence strictly positive. -/
theorem C10_nonnull_confidence {μ : Type _} (db : DB) (metadata : List (ℕ × μ))
    (pairs : List QueryPair)
    (h : (match_song db metadata pairs).1 ≠ none) :
    1 ≤ (selectBest (runScan db pairs).counts).2.1 ∧
    (∃ t, (selectBest (runScan db pairs).counts).1 = some t ∧
      ∃ ip ∈ pairs.enum, pairHits db ip.2 t = true) ∧
    (1 : ℚ) / (pairs.length : ℚ) ≤ (match_song db metadata pairs).2.1 ∧
    0 < (match_song db metadata pairs).2.1 := by
  cases hb : (selectBest (runScan db pairs).counts).1 with
  | none =>
    exfalso
    rw [match_song_track, hb] at h
    exact h rfl
  | some t =>
    obtain ⟨hcpos, -⟩ := selectBest_fst_some hb
    have hfne := best_track_filter_ne_nil hb
    obtain ⟨ip, hip⟩ := List.exists_mem_of_ne_nil _ hfne
    obtain ⟨hipmem, hph⟩ := List.mem_filter.mp hip
    have hplen : pairs ≠ [] := by
      intro hnil
      rw [hnil] at hipmem
      simp at hipmem
    have hlenpos : 0 < (pairs.length : ℚ) := by
      exact_mod_cast List.length_pos.mpr hplen
    have hfl : 1 ≤ (pairs.enum.filter fun ip => pairHits db ip.2 t).length :=
      List.length_pos.mpr hfne
    have hconf := match_song_conf db metadata pairs
    refine ⟨hcpos, ⟨t, rfl, ip, hipmem, hph⟩, ?_, ?_⟩
    · rw [hconf, if_neg hplen, hb]
      simp only [Option.elim]
      have h1 : (1 : ℚ) ≤
          ((pairs.enum.filter fun ip => pairHits db ip.2 t).length : ℚ) := by
        exact_mod_cast hfl
      exact (div_le_div_iff_of_pos_right hlenpos).mpr h1
    · rw [hconf, if_neg hplen, hb]
      simp only [Option.elim]
      exact div_pos (lt_of_lt_of_le one_pos (by exact_mod_cast hfl)) hlenpos

/-- Witness for C10 at a one-track database matched by a one-pair query. -/
theorem C10_nonnull_confidence_witness :
    1 ≤ (selectBest (runScan [((0 : ℕ), [((1 : ℕ), (0 : ℤ))])]
        [((0 : ℕ), (0 : ℕ), (0 : ℕ), (0 : ℤ))]).counts).2.1 ∧
    (∃ t, (selectBest (runScan [((0 : ℕ), [((1 : ℕ), (0 : ℤ))])]
        [((0 : ℕ), (0 : ℕ), (0 : ℕ), (0 : ℤ))]).counts).1 = some t ∧
      ∃ ip ∈ ([((0 : ℕ), (0 : ℕ), (0 : ℕ), (0 : ℤ))] : List QueryPair).enum,
        pairHits [((0 : ℕ), [((1 : ℕ), (0 : ℤ))])] ip.2 t = true) ∧
    (1 : ℚ) / (([((0 : ℕ), (0 : ℕ), (0 : ℕ), (0 : ℤ))] : List QueryPair).length : ℚ) ≤
      (match_song [((0 : ℕ), [((1 : ℕ), (0 : ℤ))])] [((1 : ℕ), (10 : ℕ))]
        [((0 : ℕ), (0 : ℕ), (0 : ℕ), (0 : ℤ))]).2.1 ∧
    0 < (match_song [((0 : ℕ), [((1 : ℕ), (0 : ℤ))])] [((1 : ℕ), (10 : ℕ))]
        [((0 : ℕ), (0 : ℕ), (0 : ℕ), (0 : ℤ))]).2.1 :=
  C10_nonnull_confidence [((0 : ℕ), [((1 : ℕ), (0 : ℤ))])] [((1 : ℕ), (10 : ℕ))]
    [((0 : ℕ), (0 : ℕ), (0 : ℕ), (0 : ℤ))] (by decide)

/-! ### Index builder, from create_fingerprint_database in
db_pipeline/fingerprint_db.py (the pair-ingestion inner loop) -/

/-- The primary key of a pair record at ingestion: quantize the two frequency
fields and the time delta with bin size 2, then pack them. -/
def primary_key (p : QueryPair) : ℕ :=
  hash_function (quantize_value p.1 2) (quantize_value p.2.1 2)
    (quantize_value p.2.2.1 2)

/-- Ingesting one pair record (freq1, freq2, delta_t, anchor_time): append the
posting (track_id, anchor_time) to the index entry of the primary key,
creating an empty entry first when the key is absent. -/
def ingest_pair (db : DB) (track_id : ℕ) (p : QueryPair) : DB :=
  upsert db (primary_key p) fun o => (o.getD []) ++ [(track_id, p.2.2.2)]

/-- Ingesting every pair record of one track in order. -/
def ingest_track (db : DB) (track_id : ℕ) (pairs : List QueryPair) : DB :=
  pairs.foldl (fun d p => ingest_pair d track_id p) db

/-- Claim C1: each pair record processed during ingestion appends exactly one
posting (track_id, t_anchor), with the anchor time of that same pair, to the
index entry of its quantized primary key, and leaves every other key
untouched; ingesting a track is exactly this step folded over its records. -/
theorem C1_ingest_primary_only (db : DB) (track_id : ℕ) (p : QueryPair) :
    alGet (ingest_pair db track_id p) (primary_key p) =
      some (((alGet db (primary_key p)).getD []) ++ [(track_id, p.2.2.2)]) ∧
    (∀ k, k ≠ primary_key p →
      alGet (ingest_pair db track_id p) k = alGet db k) ∧
    ingest_track db track_id [] = db ∧
    (∀ pairs q, ingest_track db track_id (q :: pairs) =
      ingest_track (ingest_pair db track_id q) track_id pairs) := by
  refine ⟨alGet_upsert_self db (primary_key p) _, ?_, rfl, fun pairs q => rfl⟩
  intro k hk
  exact alGet_upsert_ne db (primary_key p) k _ hk

/-- Witness for C1 at a concrete record on an empty index. -/
theorem C1_ingest_primary_only_witness :
    alGet (ingest_pair [] 1 ((6 : ℕ), (8 : ℕ), (4 : ℕ), (9 : ℤ)))
        (primary_key ((6 : ℕ), (8 : ℕ), (4 : ℕ), (9 : ℤ))) =
      some (((alGet ([] : DB)
          (primary_key ((6 : ℕ), (8 : ℕ), (4 : ℕ), (9 : ℤ)))).getD []) ++
        [(1, (9 : ℤ))]) ∧
    (∀ k, k ≠ primary_key ((6 : ℕ), (8 : ℕ), (4 : ℕ), (9 : ℤ)) →
      alGet (ingest_pair [] 1 ((6 : ℕ), (8 : ℕ), (4 : ℕ), (9 : ℤ))) k =
        alGet ([] : DB) k) ∧
    ingest_track [] 1 [] = ([] : DB) ∧
    (∀ pairs q, ingest_track ([] : DB) 1 (q :: pairs) =
      ingest_track (ingest_pair [] 1 q) 1 pairs) :=
  C1_ingest_primary_only [] 1 ((6 : ℕ), (8 : ℕ), (4 : ℕ), (9 : ℤ))

/-! ### Peak extractor, from create_audio_fingerprint in audio-fingerprint.py:
stage A per-band column maxima, then the maximum-filter peak mask. -/

/-- Maximum of a non-empty list of magnitudes (0 for the empty list, which the
code never queries). -/
def maxListQ : List ℚ → ℚ
  | [] => 0
  | [x] => x
  | x :: y :: tl => max x (maxListQ (y :: tl))

/-- np.argmax: the lowest index attaining the maximum of the list. -/
def argmaxList : List ℚ → ℕ
  | [] => 0
  | [_] => 0
  | x :: y :: tl => if maxListQ (y :: tl) ≤ x then 0 else argmaxList (y :: tl) + 1

/-- The column slice magnitude[start:end, t] of the spectrogram. -/
def bandSlice (mag : ℕ → ℕ → ℚ) (s e t : ℕ) : List ℚ :=
  (List.range (e - s)).map fun k => mag (s + k) t

theorem bandSlice_length (mag : ℕ → ℕ → ℚ) (s e t : ℕ) :
    (bandSlice mag s e t).length = e - s := by
  simp [bandSlice]

theorem bandSlice_getD (mag : ℕ → ℕ → ℚ) (s e t : ℕ) {k : ℕ} (hk : k < e - s) :
    (bandSlice mag s e t).getD k 0 = mag (s + k) t := by
  rw [bandSlice, List.getD_eq_getElem?_getD, List.getElem?_map,
    List.getElem?_range hk]
  rfl

theorem getD_le_maxListQ (l : List ℚ) :
    ∀ i, i < l.length → l.getD i 0 ≤ maxListQ l := by
  induction l with
  | nil => intro i hi; simp at hi
  | cons x tl ih =>
    intro i hi
    match tl, i with
    | [], 0 => simp [maxListQ]
    | [], i + 1 => simp at hi
    | y :: tl2, 0 =>
      simp only [List.getD_cons_zero, maxListQ]
      exact le_max_left x (maxListQ (y :: tl2))
    | y :: tl2, i + 1 =>
      simp only [List.getD_cons_succ]
      refine le_trans (ih i (by simpa using hi)) ?_
      simp only [maxListQ]
      exact le_max_right x (maxListQ (y :: tl2))

theorem argmaxList_lt_length (l : List ℚ) (h : l ≠ []) :
    argmaxList l < l.length := by
  induction l with
  | nil => exact absurd rfl h
  | cons x tl ih =>
    match tl with
    | [] => simp [argmaxList]
    | y :: tl2 =>
      rw [argmaxList]
      by_cases hm : maxListQ (y :: tl2) ≤ x
      · rw [if_pos hm]
        simp
      · rw [if_neg hm]
        have := ih (by simp)
        simpa using Nat.succ_lt_succ this

theorem argmaxList_getD_eq_maxListQ (l : List ℚ) (h : l ≠ []) :
    l.getD (argmaxList l) 0 = maxListQ l := by
  induction l with
  | nil => exact absurd rfl h
  | cons x tl ih =>
    match tl with
    | [] => simp [argmaxList, maxListQ]
    | y :: tl2 =>
      rw [argmaxList]
      by_cases hm : maxListQ (y :: tl2) ≤ x
      · rw [if_pos hm]
        simp only [List.getD_cons_zero, maxListQ]
        exact (max_eq_left hm).symm
      · rw [if_neg hm]
        simp only [List.getD_cons_succ, maxListQ]
        rw [ih (by simp)]
        exact (max_eq_right (le_of_not_le hm)).symm

theorem argmaxList_first (l : List ℚ) :
    ∀ i, i < argmaxList l → l.getD i 0 < l.getD (argmaxList l) 0 := by
  induction l with
  | nil => intro i hi; simp [argmaxList] at hi
  | cons x tl ih =>
    intro i hi
    match tl, hi with
    | [], hi => simp [argmaxList] at hi
    | y :: tl2, hi =>
      rw [argmaxList] at hi ⊢
      by_cases hm : maxListQ (y :: tl2) ≤ x
      · rw [if_pos hm] at hi
        omega
      · rw [if_neg hm] at hi ⊢
        match i with
        | 0 =>
          simp only [List.getD_cons_zero, List.getD_cons_succ]
          calc x < maxListQ (y :: tl2) := lt_of_not_le hm
            _ = (y :: tl2).getD (argmaxList (y :: tl2)) 0 :=
              (argmaxList_getD_eq_maxListQ _ (by simp)).symm
        | i + 1 =>
          simp only [List.getD_cons_succ]
          exact ih i (by omega)

/-- Writing one value into one cell of the sparse matrix. -/
def writeCell (m : ℕ → ℕ → ℚ) (i t : ℕ) (v : ℚ) : ℕ → ℕ → ℚ :=
  fun g u => if g = i ∧ u = t then v else m g u

/-- One band of stage A at time frame t: when the band slice is non-empty,
write the magnitude at the argmax bin of the band into the sparse matrix. -/
def stageAStep (mag : ℕ → ℕ → ℚ) (t : ℕ) (m : ℕ → ℕ → ℚ)
    (band : ℕ × ℕ) : ℕ → ℕ → ℚ :=
  if 0 < band.2 - band.1 then
    writeCell m (band.1 + argmaxList (bandSlice mag band.1 band.2 t)) t
      (mag (band.1 + argmaxList (bandSlice mag band.1 band.2 t)) t)
  else m

/-- The stage A double loop of create_audio_fingerprint: for every time frame
and every band, write the band maximum into an initially zero matrix. -/
def band_peaks (mag : ℕ → ℕ → ℚ) (bands : List (ℕ × ℕ)) (T : ℕ) :
    ℕ → ℕ → ℚ :=
  (List.range T).foldl (fun m t => bands.foldl (stageAStep mag t) m)
    (fun _ _ => 0)

/-- Cell (f, t) receives a stage A write: some non-empty band has its argmax
at bin f in column t. -/
def writtenBy (mag : ℕ → ℕ → ℚ) (bands : List (ℕ × ℕ)) (f t : ℕ) : Prop :=
  ∃ b ∈ bands, 0 < b.2 - b.1 ∧
    f = b.1 + argmaxList (bandSlice mag b.1 b.2 t)

instance (mag : ℕ → ℕ → ℚ) (bands : List (ℕ × ℕ)) (f t : ℕ) :
    Decidable (writtenBy mag bands f t) :=
  List.decidableBEx _ bands

theorem stageARow_other_col (mag : ℕ → ℕ → ℚ) (t : ℕ) (bands : List (ℕ × ℕ))
    (m : ℕ → ℕ → ℚ) (f u : ℕ) (h : u ≠ t) :
    (bands.foldl (stageAStep mag t) m) f u = m f u := by
  induction bands generalizing m with
  | nil => rfl
  | cons b bands ih =>
    rw [List.foldl_cons, ih]
    rw [stageAStep]
    by_cases hb : 0 < b.2 - b.1
    · rw [if_pos hb, writeCell]
      simp [h]
    · rw [if_neg hb]

theorem stageARow_col (mag : ℕ → ℕ → ℚ) (t : ℕ) (bands : List (ℕ × ℕ))
    (m : ℕ → ℕ → ℚ) (f : ℕ) :
    (bands.foldl (stageAStep mag t) m) f t =
      if writtenBy mag bands f t then mag f t else m f t := by
  induction bands generalizing m with
  | nil =>
    rw [if_neg]
    · rfl
    · rintro ⟨b, hb, -⟩
      simp at hb
  | cons b bands ih =>
    rw [List.foldl_cons, ih]
    by_cases hrest : writtenBy mag bands f t
    · rw [if_pos hrest, if_pos]
      obtain ⟨b', hb', hprop⟩ := hrest
      exact ⟨b', List.mem_cons_of_mem b hb', hprop⟩
    · rw [if_neg hrest]
      rw [stageAStep]
      by_cases hb : 0 < b.2 - b.1
      · rw [if_pos hb, writeCell]
        by_cases hf : f = b.1 + argmaxList (bandSlice mag b.1 b.2 t)
        · rw [if_pos ⟨hf, rfl⟩, if_pos ⟨b, List.mem_cons_self b bands, hb, hf⟩, hf]
        · rw [if_neg (by simp [hf]), if_neg]
          rintro ⟨b', hb', hprop⟩
          rcases List.mem_cons.mp hb' with rfl | hmem
          · exact hf hprop.2
          · exact hrest ⟨b', hmem, hprop⟩
      · rw [if_neg hb, if_neg]
        rintro ⟨b', hb', hprop⟩
        rcases List.mem_cons.mp hb' with rfl | hmem
        · exact hb hprop.1
        · exact hrest ⟨b', hmem, hprop⟩

theorem band_peaks_eq (mag : ℕ → ℕ → ℚ) (bands : List (ℕ × ℕ)) (T : ℕ)
    (f t : ℕ) :
    band_peaks mag bands T f t =
      if t < T ∧ writtenBy mag bands f t then mag f t else 0 := by
  induction T with
  | zero =>
    rw [band_peaks, if_neg (by omega)]
    rfl
  | succ T ih =>
    rw [band_peaks, List.range_succ, List.foldl_append, List.foldl_cons,
      List.foldl_nil]
    by_cases ht : t = T
    · subst ht
      rw [stageARow_col]
      by_cases hw : writtenBy mag bands f t
      · rw [if_pos hw, if_pos ⟨Nat.lt_succ_self t, hw⟩]
      · rw [if_neg hw, if_neg (by tauto)]
        have := ih
        rw [band_peaks] at this
        rw [this, if_neg (by omega)]
    · rw [stageARow_other_col mag T bands _ f t ht]
      have := ih
      rw [band_peaks] at this
      rw [this]
      by_cases hlt : t < T ∧ writtenBy mag bands f t
      · rw [if_pos hlt, if_pos ⟨by omega, hlt.2⟩]
      · rw [if_neg hlt, if_neg (by rintro ⟨h1, h2⟩; exact hlt ⟨by omega, h2⟩)]

/-- The in-range window of half-width 15 around index c in a dimension of
size n: indices from c minus 15 up to c plus 14. -/
def windowIdx (n c : ℕ) : List ℕ := (List.range (min (c + 15) n)).drop (c - 15)

/-- scipy maximum_filter with size 30 and origin 0 over the sparse matrix:
the window spans offsets minus 15 through plus 14 in both axes; under the
reflect boundary mode the window maximum equals the maximum over the clipped
in-range window, which is what this definition takes. -/
def max_filtered (P : ℕ → ℕ → ℚ) (F T f t : ℕ) : ℚ :=
  maxListQ ((windowIdx F f).flatMap fun g => (windowIdx T t).map fun u => P g u)

/-- np.argwhere over the peak mask, emitted as (time, frequency) pairs in
row-major order of (frequency, time), as create_audio_fingerprint does. -/
def fingerprintOf (mag : ℕ → ℕ → ℚ) (bands : List (ℕ × ℕ)) (F T : ℕ) :
    List (ℕ × ℕ) :=
  (List.range F).flatMap fun f =>
    (List.range T).filterMap fun t =>
      if band_peaks mag bands T f t =
            max_filtered (band_peaks mag bands T) F T f t ∧
          0 < band_peaks mag bands T f t
      then some (t, f) else none

theorem mem_fingerprintOf (mag : ℕ → ℕ → ℚ) (bands : List (ℕ × ℕ))
    (F T t f : ℕ) :
    (t, f) ∈ fingerprintOf mag bands F T ↔
      f < F ∧ t < T ∧
      band_peaks mag bands T f t =
        max_filtered (band_peaks mag bands T) F T f t ∧
      0 < band_peaks mag bands T f t := by
  rw [fingerprintOf, List.mem_flatMap]
  constructor
  · rintro ⟨g, hg, hmem⟩
    rw [List.mem_filterMap] at hmem
    obtain ⟨u, hu, heq⟩ := hmem
    split_ifs at heq with hcond
    obtain ⟨rfl, rfl⟩ := Prod.mk.injEq .. ▸ Option.some.inj heq
    exact ⟨List.mem_range.mp hg, List.mem_range.mp hu, hcond⟩
  · rintro ⟨hf, ht, hcond⟩
    refine ⟨f, List.mem_range.mpr hf, ?_⟩
    rw [List.mem_filterMap]
    exact ⟨t, List.mem_range.mpr ht, by rw [if_pos hcond]⟩

/-- Claim C8: stage A writes, for each time frame and each non-empty band, the
magnitude at the lowest bin attaining the band maximum of that column (every
unwritten cell stays 0), and the peak list consists of exactly the cells whose
stage A value is positive and equal to the 30 by 30 maximum-filter output. -/
theorem C8_peak_extractor (mag : ℕ → ℕ → ℚ) (bands : List (ℕ × ℕ)) (F T : ℕ)
    (hnn : ∀ f t, 0 ≤ mag f t) (hbnd : ∀ b ∈ bands, b.2 ≤ F) :
    (∀ t, t < T → ∀ b ∈ bands, b.1 < b.2 →
      ∀ i, i = b.1 + argmaxList (bandSlice mag b.1 b.2 t) →
        band_peaks mag bands T i t = mag i t ∧ b.1 ≤ i ∧ i < b.2 ∧
        (∀ j, b.1 ≤ j → j < b.2 → mag j t ≤ mag i t) ∧
        (∀ j, b.1 ≤ j → j < i → mag j t < mag i t)) ∧
    (∀ f t, ¬ writtenBy mag bands f t → band_peaks mag bands T f t = 0) ∧
    (∀ t f, (t, f) ∈ fingerprintOf mag bands F T ↔
      f < F ∧ t < T ∧
      band_peaks mag bands T f t =
        max_filtered (band_peaks mag bands T) F T f t ∧
      0 < band_peaks mag bands T f t) := by
  refine ⟨?_, ?_, fun t f => mem_fingerprintOf mag bands F T t f⟩
  · intro t ht b hb hnonempty i hi
    have hlen : (bandSlice mag b.1 b.2 t).length = b.2 - b.1 :=
      bandSlice_length mag b.1 b.2 t
    have hne : bandSlice mag b.1 b.2 t ≠ [] := by
      intro hnil
      rw [hnil] at hlen
      simp at hlen
      omega
    have hamlt : argmaxList (bandSlice mag b.1 b.2 t) < b.2 - b.1 := by
      rw [← hlen]
      exact argmaxList_lt_length _ hne
    have hival : mag i t = (bandSlice mag b.1 b.2 t).getD
        (argmaxList (bandSlice mag b.1 b.2 t)) 0 := by
      rw [bandSlice_getD mag b.1 b.2 t hamlt, hi]
    refine ⟨?_, by omega, by omega, ?_, ?_⟩
    · rw [band_peaks_eq, if_pos ⟨ht, b, hb, by omega, hi⟩]
    · intro j hj1 hj2
      have hk : j - b.1 < b.2 - b.1 := by omega
      have hjval : mag j t = (bandSlice mag b.1 b.2 t).getD (j - b.1) 0 := by
        rw [bandSlice_getD mag b.1 b.2 t hk]
        congr 1
        omega
      rw [hjval, hival]
      rw [argmaxList_getD_eq_maxListQ _ hne]
      exact getD_le_maxListQ _ _ (by rw [hlen]; exact hk)
    · intro j hj1 hj2
      have hk : j - b.1 < argmaxList (bandSlice mag b.1 b.2 t) := by omega
      have hjval : mag j t = (bandSlice mag b.1 b.2 t).getD (j - b.1) 0 := by
        rw [bandSlice_getD mag b.1 b.2 t (by omega)]
        congr 1
        omega
      rw [hjval, hival]
      exact argmaxList_first _ _ hk
  · intro f t hw
    rw [band_peaks_eq, if_neg (by tauto)]

/-- Witness for C8 on the one-cell constant matrix with a single band. -/
theorem C8_peak_extractor_witness :
    (∀ t, t < 1 → ∀ b ∈ [((0 : ℕ), (1 : ℕ))], b.1 < b.2 →
      ∀ i, i = b.1 + argmaxList (bandSlice (fun _ _ => (1 : ℚ)) b.1 b.2 t) →
        band_peaks (fun _ _ => (1 : ℚ)) [((0 : ℕ), (1 : ℕ))] 1 i t =
            (fun _ _ => (1 : ℚ)) i t ∧
          b.1 ≤ i ∧ i < b.2 ∧
          (∀ j, b.1 ≤ j → j < b.2 →
            (fun _ _ => (1 : ℚ)) j t ≤ (fun _ _ => (1 : ℚ)) i t) ∧
          (∀ j, b.1 ≤ j → j < i →
            (fun _ _ => (1 : ℚ)) j t < (fun _ _ => (1 : ℚ)) i t)) ∧
    (∀ f t, ¬ writtenBy (fun _ _ => (1 : ℚ)) [((0 : ℕ), (1 : ℕ))] f t →
      band_peaks (fun _ _ => (1 : ℚ)) [((0 : ℕ), (1 : ℕ))] 1 f t = 0) ∧
    (∀ t f, (t, f) ∈ fingerprintOf (fun _ _ => (1 : ℚ)) [((0 : ℕ), (1 : ℕ))] 1 1 ↔
      f < 1 ∧ t < 1 ∧
      band_peaks (fun _ _ => (1 : ℚ)) [((0 : ℕ), (1 : ℕ))] 1 f t =
        max_filtered (band_peaks (fun _ _ => (1 : ℚ)) [((0 : ℕ), (1 : ℕ))] 1)
          1 1 f t ∧
      0 < band_peaks (fun _ _ => (1 : ℚ)) [((0 : ℕ), (1 : ℕ))] 1 f t) :=
  C8_peak_extractor (fun _ _ => (1 : ℚ)) [((0 : ℕ), (1 : ℕ))] 1 1
    (fun _ _ => zero_le_one) (by decide)

end Shazoom
